import Mathlib

/-!
# An encrypting mirror filesystem: `encfs.c` and `pa5-encfs.c`

Shallow embedding of the FUSE callbacks of the two variants in this repository:

* `src/encfs.c` (namespace `Uniform`): every regular file is run through the
  cipher on read, write and create.
* `src/pa5-encfs.c` (namespace `Tagged`): a file is run through the cipher
  when the extended attribute `user.enc` is set on it.

What is modelled, and how:

* The mirror tree is a map from real paths to regular files.  A file has its
  bytes and, when set, the value of its `user.enc` attribute.  Every file is
  reached by exactly one path (the tree holds no symbolic link and no hard
  link), and the daemon can read and write every file of the tree.
* Directories are not part of the map.  Every directory a path runs through is
  taken to exist and to be searchable, and a path at which the map holds
  nothing names neither a file nor a directory.  A native call on such a path
  fails with the `errno` of the path walk (`lookup_errno`); `fopen(.., "w")`
  creates the file there when the walk finds nothing but the last name missing.
* `errno` is a field of the world, written by the native calls that fail.
* Whether `creat` and `setxattr` succeed also depends on what is not modelled
  (quota, read-only mounts, attribute support of the native filesystem); that
  outcome is an argument of `Tagged.encfs_create`.  `creat` is defined for the
  modes that leave the new file readable and writable by its owner, the daemon;
  a file created with another mode is not a file the tree can hold.
* A stdio stream on a file is its content together with a position;
  `do_crypt(in, out)` consumes `in` from its position to the end and writes the
  transformed bytes to `out` at its position.
* The stream of `open_memstream` follows glibc: a buffer with a put pointer, a
  get pointer and the end of the readable part.  `fseek` on a stream whose put
  pointer is past the start first ends the readable part at the put pointer,
  so what lay beyond a write made after seeking back is no longer read.
* `do_crypt` lives in `aes-crypt.c`, outside the two source files; it is a
  parameter (`CryptoAdapter`).
* C strings are lists of characters without the terminating NUL.
* `int res = fread(..)` converts a `size_t` count to a 32-bit `int`.
-/

namespace EncFS

/-! ## Data model -/

abbrev Byte := Fin 256

abbrev Bytes := List Byte

abbrev CStr := List Char

/-- A regular file of the mirror tree: content and the value of the
`user.enc` extended attribute when the attribute is set. -/
structure File where
  data : Bytes
  enc_xattr : Option Bytes
deriving DecidableEq, Repr

/-- The mirror tree: real path to file. -/
abbrev Tree := CStr → Option File

/-- The native filesystem together with the calling thread's `errno`. -/
structure World where
  fs : Tree
  errno : Int

/-- `PATH_MAX` of `<limits.h>` (Linux). -/
def PATH_MAX : Nat := 4096

/-- `ENOENT` of `<errno.h>` (Linux). -/
def ENOENT : Int := 2

/-- `EINVAL` of `<errno.h>` (Linux). -/
def EINVAL : Int := 22

/-- `ENODATA` of `<errno.h>` (Linux): the attribute is not set. -/
def ENODATA : Int := 61

/-- `ENOTDIR` of `<errno.h>` (Linux). -/
def ENOTDIR : Int := 20

/-- `ENAMETOOLONG` of `<errno.h>` (Linux). -/
def ENAMETOOLONG : Int := 36

/-- `NAME_MAX` of `<limits.h>` (Linux). -/
def NAME_MAX : Nat := 255

/-- Conversion of a `size_t`/`ssize_t` count to `int` (two's complement, 32 bits). -/
def toInt32 (n : Nat) : Int :=
  if n % 2 ^ 32 < 2 ^ 31 then ((n % 2 ^ 32 : Nat) : Int) else ((n % 2 ^ 32 : Nat) : Int) - 2 ^ 32

/-! ## The Crypto Adapter (`aes-crypt.h`) -/

/-- What one run of `do_crypt` yields: its success flag and the bytes it wrote to `out`. -/
structure CryptResult where
  ok : Bool
  out : Bytes
deriving DecidableEq, Repr

/-- The function `do_crypt(in, out, action, key_str)` on the bytes it consumes from `in`. -/
structure CryptoAdapter where
  do_crypt : Bytes → Int → CStr → CryptResult

/-- Decryption (`action = 0`) inverts encryption (`action = 1`) under `key`. -/
def CryptoAdapter.Inverts (A : CryptoAdapter) (key : CStr) : Prop :=
  ∀ M : Bytes, (A.do_crypt (A.do_crypt M 1 key).out 0 key).out = M

/-- A concrete adapter with the shape of a padded cipher, for evaluating the
callbacks on concrete inputs: encryption shifts every byte by one and appends
the pad byte `255`; decryption holds back the last byte, undoes the shift and
succeeds when the byte held back is the pad byte; any other action copies. -/
def shiftPad : CryptoAdapter where
  do_crypt := fun input action _ =>
    if action = 1 then ⟨true, input.map (· + 1) ++ [255]⟩
    else if action = 0 then ⟨decide (input.getLast? = some 255), input.dropLast.map (· - 1)⟩
    else ⟨true, input⟩

/-! ## Native files and stdio streams -/

/-- Bytes `b` stored at position `pos` of `data`; a hole between the end of
`data` and `pos` reads as zero. -/
def overlay (data : Bytes) (pos : Nat) (b : Bytes) : Bytes :=
  data.take pos ++ List.replicate (pos - data.length) 0 ++ b ++ data.drop (pos + b.length)

def Tree.set (t : Tree) (p : CStr) (f : Option File) : Tree :=
  fun q => if q = p then f else t q

/-- Content of the file at `p`, from position `pos` to the end. -/
def Tree.readFrom (t : Tree) (p : CStr) (pos : Nat) : Bytes :=
  match t p with
  | some f => f.data.drop pos
  | none => []

/-- The file at `p` after `b` is written at position `pos` of it. -/
def Tree.writeAt (t : Tree) (p : CStr) (pos : Nat) (b : Bytes) : Tree :=
  match t p with
  | some f => t.set p (some { f with data := overlay f.data pos b })
  | none => t

/-- Length of the file at `p`. -/
def Tree.size (t : Tree) (p : CStr) : Nat :=
  (t.readFrom p 0).length

/-- The `errno` of the kernel's walk along a path that reaches no file: `pre` is the part
already read, `cur` the length of the name being read, the third argument what is still to
be read.  A name longer than `NAME_MAX` gives `ENAMETOOLONG`; a regular file that the path
runs through as if it were a directory gives `ENOTDIR`; a walk that only misses the last
name gives `ENOENT`. -/
def walk_errno (t : Tree) : CStr → Nat → CStr → Int
  | _, cur, [] => if NAME_MAX < cur then ENAMETOOLONG else ENOENT
  | pre, cur, c :: cs =>
    if c = '/' then
      if NAME_MAX < cur then ENAMETOOLONG
      else if (t pre).isSome then ENOTDIR
      else walk_errno t (pre ++ [c]) 0 cs
    else walk_errno t (pre ++ [c]) (cur + 1) cs

/-- The `errno` of `fopen`, `open`, `getxattr` or `truncate` on a path `p` at which the
tree holds no file. -/
def lookup_errno (t : Tree) (p : CStr) : Int :=
  if PATH_MAX ≤ p.length then ENAMETOOLONG else walk_errno t [] 0 p

/-- The `errno` of `fopen(p, "w")` (or `creat`) when the path walk makes it fail: a file
that is there is reopened, and a new one is created when only its own name is missing. -/
def fopen_w_errno (t : Tree) (p : CStr) : Option Int :=
  match t p with
  | some _ => none
  | none => if lookup_errno t p = ENOENT then none else some (lookup_errno t p)

/-- The tree after `fopen(p, "w")` or `fopen(p, "wb+")`: the file is created
empty, or cut to length zero when it exists (its attributes stay). -/
def fopen_w (t : Tree) (p : CStr) : Tree :=
  match t p with
  | some f => t.set p (some { f with data := [] })
  | none => t.set p (some ⟨[], none⟩)

/-- The call `getxattr(p, "user.enc", NULL, 0)`: size of the attribute value (an
`ssize_t`, wide enough for any value size), or `-1` with `errno` set. -/
def getxattr_size (w : World) (p : CStr) : Int × World :=
  match w.fs p with
  | none => (-1, { w with errno := lookup_errno w.fs p })
  | some f =>
    match f.enc_xattr with
    | none => (-1, { w with errno := ENODATA })
    | some v => ((v.length : Int), w)

/-- The call `truncate(p, size)`. -/
def truncate (w : World) (p : CStr) (size : Int) : Int × World :=
  match w.fs p with
  | none => (-1, { w with errno := lookup_errno w.fs p })
  | some f =>
    if size < 0 then (-1, { w with errno := EINVAL })
    else
      let n := size.toNat
      let f1 : File := { f with data := f.data.take n ++ List.replicate (n - f.data.length) 0 }
      (0, { w with fs := Tree.set w.fs p (some f1) })

/-- `EBADF` of `<errno.h>` (Linux). -/
def EBADF : Int := 9

/-- The mode grants its owner read and write permission (`S_IRUSR` and `S_IWUSR`, bits 8
and 7). -/
def ownerReadWrite (mode : Nat) : Prop :=
  mode.testBit 8 = true ∧ mode.testBit 7 = true

instance (mode : Nat) : Decidable (ownerReadWrite mode) := by
  unfold ownerReadWrite
  infer_instance

/-- The call `creat(p, mode)`, that is `open(p, O_CREAT|O_WRONLY|O_TRUNC, mode)`, for a mode
that leaves the file readable and writable by the daemon (`main` sets `umask(0)`, so the
bits of `mode` are the bits of a new file).  It fails when the path walk fails, and when
the given outcome says so: `none` for no further obstacle, `some e` for a failure with
`errno = e`.  On success the file is created empty, or cut to length zero when it exists
(its mode and attributes stay); `3` stands for the descriptor returned. -/
def creat (w : World) (p : CStr) (mode : Nat) (_hmode : ownerReadWrite mode)
    (outcome : Option Int) : Int × World :=
  match outcome with
  | some e => (-1, { w with errno := e })
  | none =>
    match fopen_w_errno w.fs p with
    | some e => (-1, { w with errno := e })
    | none => (3, { w with fs := fopen_w w.fs p })

/-- The call `setxattr(p, "user.enc", value, size, 0)`, with its outcome given: `none` when
the native filesystem accepts it, `some e` when it fails with `errno = e`.  With flags `0`
the attribute is created or replaced; a missing file fails as the path walk does. -/
def setxattr (w : World) (p : CStr) (value : Bytes) (size : Nat) (outcome : Option Int) :
    Int × World :=
  match outcome with
  | some e => (-1, { w with errno := e })
  | none =>
    match w.fs p with
    | none => (-1, { w with errno := lookup_errno w.fs p })
    | some f => (0, { w with fs := Tree.set w.fs p (some ⟨f.data, some (value.take size)⟩) })

/-- An in-memory stream of `open_memstream`, as glibc keeps it: the buffer, the get
pointer, the put pointer and the end of the readable part. -/
structure MemStream where
  mem : Bytes
  rpos : Nat
  wpos : Nat
  rend : Nat
deriving DecidableEq, Repr

def open_memstream : MemStream := ⟨[], 0, 0, 0⟩

/-- Bytes written at the put pointer (`fwrite`, or the writes of `do_crypt`). -/
def MemStream.write (m : MemStream) (b : Bytes) : MemStream :=
  if b = [] then m
  else { m with mem := overlay m.mem m.wpos b, wpos := m.wpos + b.length }

/-- The call `fseek(m, off, SEEK_SET)`.  A stream whose put pointer is past the start is
first switched to reading, which ends the readable part at the put pointer.  A negative
offset is then refused (`EINVAL`).  Otherwise both pointers move to `off`, and the buffer
is zero-filled up to `off` when it is shorter. -/
def MemStream.seek (m : MemStream) (off : Int) : MemStream :=
  let m1 : MemStream := if 0 < m.wpos then { m with rpos := m.wpos, rend := m.wpos } else m
  if off < 0 then m1
  else
    { mem := m1.mem ++ List.replicate (off.toNat - m1.mem.length) 0
      rpos := off.toNat
      wpos := off.toNat
      rend := max m1.wpos m1.rend }

/-- What a reader gets from the get pointer to the end of the readable part; the readable
part reaches the put pointer when that lies further. -/
def MemStream.rest (m : MemStream) : Bytes :=
  ((m.mem ++ List.replicate (max m.rend m.wpos - m.mem.length) 0).take
    (max m.rend m.wpos)).drop m.rpos

/-- What `fread(buf, 1, n, m)` stores in `buf`. -/
def MemStream.read (m : MemStream) (n : Nat) : Bytes :=
  m.rest.take n

/-- The `.temp` suffix of the scratch file of the tagged variant. -/
def dotTemp : CStr := ['.', 't', 'e', 'm', 'p']

/-- Result of a read callback: the `int` returned, the bytes stored in `buf`, the world after. -/
structure ReadResult where
  ret : Int
  buf : Bytes
  world : World

/-- Result of a callback that returns an `int` only. -/
structure OpResult where
  ret : Int
  world : World

/-! ## `src/encfs.c` -/

namespace Uniform

def AES_ENCRYPT : Int := 1

def AES_DECRYPT : Int := 0

structure encfs_state where
  rootdir : CStr
  passPhrase : CStr

/-- `strcpy(fpath, state->rootdir); strncat(fpath, path, PATH_MAX);` as the
string that results; it fits the buffer `char fpath[PATH_MAX]` when it is
shorter than `PATH_MAX`. -/
def encfs_fullpath (state : encfs_state) (path : CStr) : CStr :=
  state.rootdir ++ path.take PATH_MAX

def encfs_truncate (state : encfs_state) (w : World) (path : CStr) (size : Int) : OpResult :=
  let fpath := encfs_fullpath state path
  let (res, w1) := truncate w fpath size
  if res = -1 then ⟨-w1.errno, w1⟩ else ⟨0, w1⟩

def encfs_read (A : CryptoAdapter) (state : encfs_state) (w : World) (path : CStr)
    (size : Nat) (offset : Int) : ReadResult :=
  let doCrypt := AES_ENCRYPT
  let fpath := encfs_fullpath state path
  -- f = fopen(fpath, "r"); memfile = open_memstream(..); if f == NULL return -errno
  match w.fs fpath with
  | none => ⟨-(lookup_errno w.fs fpath), [], { w with errno := lookup_errno w.fs fpath }⟩
  | some f =>
    let memfile := open_memstream
    -- do_crypt(f, memfile, doCrypt, state->passPhrase)
    let memfile := memfile.write (A.do_crypt f.data doCrypt state.passPhrase).out
    -- fflush(memfile); fseek(memfile, offset, SEEK_SET): a refused seek sets errno
    let w1 : World := if offset < 0 then { w with errno := EINVAL } else w
    let memfile := memfile.seek offset
    -- res = fread(buf, 1, size, memfile)
    let got := memfile.read size
    let res := toInt32 got.length
    if res = -1 then ⟨-w1.errno, got, w1⟩ else ⟨res, got, w1⟩

def encfs_write (A : CryptoAdapter) (state : encfs_state) (w : World) (path : CStr)
    (buf : Bytes) (size : Nat) (offset : Int) : OpResult :=
  let fpath := encfs_fullpath state path
  -- f = fopen(fpath, "r"); memfile = open_memstream(..); if f == NULL return -errno
  match w.fs fpath with
  | none => ⟨-(lookup_errno w.fs fpath), { w with errno := lookup_errno w.fs fpath }⟩
  | some f =>
    let memfile := open_memstream
    -- do_crypt(f, memfile, AES_DECRYPT, state->passPhrase)
    let memfile := memfile.write (A.do_crypt f.data AES_DECRYPT state.passPhrase).out
    -- fseek(memfile, offset, SEEK_SET): a refused seek sets errno
    let errno1 : Int := if offset < 0 then EINVAL else w.errno
    let memfile := memfile.seek offset
    -- res = fwrite(buf, 1, size, memfile); if (res == -1) res = -errno; fflush(memfile)
    let memfile := memfile.write (buf.take size)
    let res := toInt32 (buf.take size).length
    let res := if res = -1 then -errno1 else res
    -- f = fopen(fpath, "w"); fseek(memfile, 0, SEEK_SET)
    let fs1 := fopen_w w.fs fpath
    let memfile := memfile.seek 0
    -- do_crypt(memfile, f, AES_ENCRYPT, state->passPhrase)
    let fs2 := fs1.writeAt fpath 0 (A.do_crypt memfile.rest AES_ENCRYPT state.passPhrase).out
    ⟨res, ⟨fs2, errno1⟩⟩

def encfs_create (A : CryptoAdapter) (state : encfs_state) (w : World) (path : CStr) : OpResult :=
  let fpath := encfs_fullpath state path
  -- temp = tmpfile(): an empty anonymous stream
  -- res = fopen(fpath, "w"); if (res == NULL) return -errno
  match fopen_w_errno w.fs fpath with
  | some e => ⟨-e, { w with errno := e }⟩
  | none =>
    let fs1 := fopen_w w.fs fpath
    -- do_crypt(temp, res, AES_ENCRYPT, state->passPhrase)
    let fs2 := fs1.writeAt fpath 0 (A.do_crypt [] AES_ENCRYPT state.passPhrase).out
    ⟨0, { w with fs := fs2 }⟩

end Uniform

/-! ## `src/pa5-encfs.c` -/

namespace Tagged

def ENCRYPT : Int := 1

def DECRYPT : Int := 0

structure encfs_state where
  rootdir : CStr
  key : CStr

/-- `strcpy(fpath, state->rootdir); strncat(fpath, path, PATH_MAX);` as the
string that results; it fits the buffer `char fpath[PATH_MAX]` when it is
shorter than `PATH_MAX`. -/
def encfs_fullpath (state : encfs_state) (path : CStr) : CStr :=
  state.rootdir ++ path.take PATH_MAX

def encfs_truncate (state : encfs_state) (w : World) (path : CStr) (size : Int) : OpResult :=
  let fullpath := encfs_fullpath state path
  let (res, w1) := truncate w fullpath size
  if res = -1 then ⟨-w1.errno, w1⟩ else ⟨0, w1⟩

/-- The branch `if (valsize >= 0) { .. }` of `encfs_read`, entered with `fullpath` resolved. -/
def encfs_read_encrypted (A : CryptoAdapter) (state : encfs_state) (w : World)
    (fullpath : CStr) : ReadResult :=
  let tmppath := fullpath ++ dotTemp
  -- tmp = fopen(tmppath, "wb+"); fp = fopen(fullpath, "rb")
  let fs1 := fopen_w w.fs tmppath
  -- do_crypt(fp, tmp, DECRYPT, key)
  let fs2 := fs1.writeAt tmppath 0 (A.do_crypt (fs1.readFrom fullpath 0) DECRYPT state.key).out
  -- fseek(tmp, 0, SEEK_END); len = ftell(tmp); fseek(tmp, 0, SEEK_SET)
  let len := fs2.size tmppath
  -- res = fread(buf, 1, len, tmp)
  let got := (fs2.readFrom tmppath 0).take len
  let res := toInt32 got.length
  if res = -1 then ⟨-w.errno, got, { w with fs := fs2 }⟩
  else
    -- fclose(fp); fclose(tmp); remove(tmppath)
    ⟨res, got, { w with fs := fs2.set tmppath none }⟩

/-- The branch `else { .. }` of `encfs_read`: `open`, `pread`, `close`. -/
def encfs_read_plain (w : World) (fullpath : CStr) (size : Nat) (offset : Int) : ReadResult :=
  match w.fs fullpath with
  | none => ⟨-(lookup_errno w.fs fullpath), [], { w with errno := lookup_errno w.fs fullpath }⟩
  | some f =>
    if offset < 0 then ⟨-EINVAL, [], { w with errno := EINVAL }⟩
    else
      let got := (f.data.drop offset.toNat).take size
      let res := toInt32 got.length
      if res = -1 then ⟨-w.errno, got, w⟩ else ⟨res, got, w⟩

def encfs_read (A : CryptoAdapter) (state : encfs_state) (w : World) (path : CStr)
    (size : Nat) (offset : Int) : ReadResult :=
  let fullpath := encfs_fullpath state path
  -- valsize = getxattr(fullpath, ENC_XATTR, NULL, 0)
  let (valsize, w1) := getxattr_size w fullpath
  if valsize ≥ 0 then encfs_read_encrypted A state w1 fullpath
  else encfs_read_plain w1 fullpath size offset

/-- The branch `if (valsize >= 0) { .. }` of `encfs_write`, entered with `fullpath` resolved. -/
def encfs_write_encrypted (A : CryptoAdapter) (state : encfs_state) (w : World)
    (fullpath : CStr) (buf : Bytes) (size : Nat) : OpResult :=
  let tmppath := fullpath ++ dotTemp
  -- fp = fopen(fullpath, "rb+"); tmp = fopen(tmppath, "wb+"); fseek(fp, 0, SEEK_SET)
  let fs1 := fopen_w w.fs tmppath
  -- do_crypt(fp, tmp, DECRYPT, key); fseek(fp, 0, SEEK_SET)
  let plain := (A.do_crypt (fs1.readFrom fullpath 0) DECRYPT state.key).out
  let fs2 := fs1.writeAt tmppath 0 plain
  let tmppos := plain.length
  -- res = fwrite(buf, 1, size, tmp)
  let fs3 := fs2.writeAt tmppath tmppos (buf.take size)
  let res := toInt32 (buf.take size).length
  if res = -1 then ⟨-w.errno, { w with fs := fs3 }⟩
  else
    -- fseek(tmp, 0, SEEK_SET); do_crypt(tmp, fp, ENCRYPT, key)
    let fs4 := fs3.writeAt fullpath 0 (A.do_crypt (fs3.readFrom tmppath 0) ENCRYPT state.key).out
    -- fclose(fp); fclose(tmp); remove(tmppath)
    ⟨res, { w with fs := fs4.set tmppath none }⟩

/-- The branch `else { .. }` of `encfs_write`: `open`, `pwrite`, `close`. -/
def encfs_write_plain (w : World) (fullpath : CStr) (buf : Bytes) (size : Nat)
    (offset : Int) : OpResult :=
  match w.fs fullpath with
  | none => ⟨-(lookup_errno w.fs fullpath), { w with errno := lookup_errno w.fs fullpath }⟩
  | some f =>
    if offset < 0 then ⟨-EINVAL, { w with errno := EINVAL }⟩
    else
      let f1 : File := { f with data := overlay f.data offset.toNat (buf.take size) }
      let res := toInt32 (buf.take size).length
      let w1 : World := { w with fs := Tree.set w.fs fullpath (some f1) }
      if res = -1 then ⟨-w.errno, w1⟩ else ⟨res, w1⟩

def encfs_write (A : CryptoAdapter) (state : encfs_state) (w : World) (path : CStr)
    (buf : Bytes) (size : Nat) (offset : Int) : OpResult :=
  let fullpath := encfs_fullpath state path
  -- valsize = getxattr(fullpath, ENC_XATTR, NULL, 0)
  let (valsize, w1) := getxattr_size w fullpath
  if valsize ≥ 0 then encfs_write_encrypted A state w1 fullpath buf size
  else encfs_write_plain w1 fullpath buf size offset

def encfs_create (state : encfs_state) (w : World) (path : CStr) (mode : Nat)
    (hmode : ownerReadWrite mode) (creat_outcome setxattr_outcome : Option Int) : OpResult :=
  let fullpath := encfs_fullpath state path
  -- res = creat(fullpath, mode); if (res == -1) return -errno
  let (res, w1) := creat w fullpath mode hmode creat_outcome
  if res = -1 then ⟨-w1.errno, w1⟩
  else
    -- fp = fdopen(res, "w"); close(res); do_crypt(fp, fp, ENCRYPT, key); fclose(fp):
    -- the descriptor under fp is closed before do_crypt runs and fp is write-only, so
    -- do_crypt reads nothing, what it writes never reaches the file, and the failed
    -- flush leaves errno = EBADF
    let w2 : World := { w1 with errno := EBADF }
    -- if (setxattr(fullpath, ENC_XATTR, "true", 4, 0) == -1) return -errno
    let (r, w3) := setxattr w2 fullpath [116, 114, 117, 101] 4 setxattr_outcome
    if r = -1 then ⟨-w3.errno, w3⟩ else ⟨0, w3⟩

end Tagged

/-! ## Notions of the specification used to state path properties -/

inductive ResolveError where
  | PathTooLong
deriving DecidableEq, Repr

/-- The Path Resolver as the specification words it: concatenation, failing
with `PathTooLong` when the concatenation exceeds the maximum path length. -/
def spec_resolve (root path : CStr) : Except ResolveError CStr :=
  if PATH_MAX < root.length + path.length then Except.error ResolveError.PathTooLong
  else Except.ok (root ++ path)

/-- The segments of a path: the pieces between its `/` characters. -/
def splitSlash : CStr → List CStr
  | [] => [[]]
  | c :: cs =>
    if c = '/' then [] :: splitSlash cs
    else
      match splitSlash cs with
      | [] => [[c]]
      | s :: ss => (c :: s) :: ss

def dot : CStr := ['.']

def dotdot : CStr := ['.', '.']

/-- One step of normalisation: an empty segment and `.` are dropped, `..`
removes the last directory entered (none above `/`), any other segment is entered. -/
def normStep (stack : List CStr) (seg : CStr) : List CStr :=
  if seg = [] ∨ seg = dot then stack
  else if seg = dotdot then stack.dropLast
  else stack ++ [seg]

/-- The directory names an absolute path denotes once `.` and `..` are resolved. -/
def normalise (p : CStr) : List CStr :=
  (splitSlash p).foldl normStep []

/-- Location `real` lies strictly below location `root`. -/
def strictlyBelow : List CStr → List CStr → Bool
  | [], [] => false
  | [], _ :: _ => true
  | _ :: _, [] => false
  | a :: as, b :: bs => a == b && strictlyBelow as bs

/-- No proper ancestor of `p` (a part of `p` that ends right before a `/`) is a regular
file of the tree. -/
def noFileAbove (t : Tree) (p : CStr) : Prop :=
  ∀ q r : CStr, p = q ++ '/' :: r → t q = none

/-- The path is shorter than `PATH_MAX` and none of its names (no stretch of it free of
`/`) is longer than `NAME_MAX`. -/
def namesWithinLimits (p : CStr) : Prop :=
  p.length < PATH_MAX ∧ ∀ a s b : CStr, p = a ++ s ++ b → '/' ∉ s → s.length ≤ NAME_MAX

/-- The `user.enc` attribute is set on the file at `p`, with whatever value. -/
def attrPresent (t : Tree) (p : CStr) : Bool :=
  match t p with
  | some f => f.enc_xattr.isSome
  | none => false

/-! ## Evaluation fixtures -/

/-- The tree with one file, `f` at path `p`. -/
def oneFile (p : CStr) (f : File) : Tree :=
  Tree.set (fun _ => none) p (some f)

def rootR : CStr := ['/', 'r']

def pathA : CStr := ['/', 'a']

def realA : CStr := ['/', 'r', '/', 'a']

def uState : Uniform.encfs_state := ⟨rootR, ['k']⟩

def tState : Tagged.encfs_state := ⟨rootR, ['k']⟩

/-- The attribute value `"true"` that `encfs_create` of the tagged variant sets. -/
def trueValue : Bytes := [116, 114, 117, 101]

/-- A world whose tree holds one file at `/r/a`. -/
def worldA (data : Bytes) (xattr : Option Bytes) : World :=
  ⟨oneFile realA ⟨data, xattr⟩, 0⟩

/-- A world whose tree holds a tagged file at `/r/a` and a file at `/r/a.temp`. -/
def worldTemp : World :=
  ⟨Tree.set (oneFile realA ⟨[2, 3, 255], some trueValue⟩) (realA ++ dotTemp) (some ⟨[7], none⟩), 0⟩

/-- A virtual path of `PATH_MAX` characters. -/
def longPath : CStr := '/' :: List.replicate 4095 'a'

def escapePath : CStr := ['/', '.', '.', '/', 'x']

/-- A world whose tree holds no file. -/
def worldEmpty : World := ⟨fun _ => none, 0⟩

/-- The virtual path `/a/b`. -/
def pathAB : CStr := ['/', 'a', '/', 'b']

/-- The real path `/r/a/b`. -/
def realAB : CStr := ['/', 'r', '/', 'a', '/', 'b']

theorem shiftPad_inverts (key : CStr) : shiftPad.Inverts key := by
  intro M
  simp [shiftPad, Function.comp_def]

theorem overlay_eq_of_le (P b : Bytes) (o : Nat) (ho : o ≤ P.length) :
    overlay P o b = P.take o ++ b ++ P.drop (o + b.length) := by
  simp [overlay, Nat.sub_eq_zero_of_le ho]

theorem overlay_zero_nil (b : Bytes) : overlay [] 0 b = b := by
  simp [overlay]

theorem Tree.set_same (t : Tree) (p : CStr) (f : Option File) : t.set p f p = f := by
  simp [Tree.set]

theorem Tree.set_other (t : Tree) (p q : CStr) (f : Option File) (h : q ≠ p) :
    t.set p f q = t q := by
  simp [Tree.set, h]

/-- After `fopen(p, "w")` and writing `b` from position 0, the file at `p` holds `b`. -/
theorem fopen_w_writeAt_data (t : Tree) (p : CStr) (b : Bytes) :
    ∃ f, (fopen_w t p).writeAt p 0 b p = some f ∧ f.data = b := by
  cases h : t p <;> simp [fopen_w, Tree.writeAt, h, Tree.set, overlay]

/-- C1, evaluated where it fails: the stored file `[2, 3, 4, 255]` decrypts to
`P = [1, 2, 3]`; `encfs_write` of `[9]` at offset 1 leaves a stored file that decrypts to
`[1, 9]`: the byte after the written one is lost, where the overlay is `[1, 9, 3]`. -/
theorem uniform_write_mid_file_loses_tail :
    (shiftPad.do_crypt [2, 3, 4, 255] Uniform.AES_DECRYPT uState.passPhrase).out = [1, 2, 3] ∧
    ((Uniform.encfs_write shiftPad uState (worldA [2, 3, 4, 255] none) pathA
        [9] 1 1).world.fs realA).map
      (fun f => (shiftPad.do_crypt f.data Uniform.AES_DECRYPT uState.passPhrase).out)
      = some [1, 9] := by
  decide

/-- What `do_crypt` reads back in `encfs_write` of `encfs.c`: the stream holds `P`, is
sought to `o ≤ len P`, gets `b` written, and is sought to 0.  Unless nothing was written
at offset 0, the readable part ends after `b`. -/
theorem memstream_seek_write_seek_rest (P b : Bytes) (o : Nat) (ho : o ≤ P.length)
    (hpos : 0 < o + b.length) :
    ((((open_memstream.write P).seek (o : Int)).write b).seek (0 : Int)).rest
      = P.take o ++ b := by
  have h0 : ¬ ((0 : Int) < 0) := by omega
  have hno : ¬ ((o : Int) < 0) := by omega
  have hsub : o - P.length = 0 := Nat.sub_eq_zero_of_le ho
  by_cases hP : P = []
  · subst hP
    have ho0 : o = 0 := by simpa using ho
    subst ho0
    have hb : b ≠ [] := by
      intro h
      simp [h] at hpos
    have hbl : 0 < b.length := List.length_pos.mpr hb
    simp [open_memstream, MemStream.write, MemStream.seek, MemStream.rest, hb, hbl,
      overlay]
  · have hPl : 0 < P.length := List.length_pos.mpr hP
    by_cases hb : b = []
    · subst hb
      have ho1 : 0 < o := by simpa using hpos
      simp [open_memstream, MemStream.write, MemStream.seek, MemStream.rest, hP, hPl, hno,
        overlay, hsub, ho1, Nat.min_eq_left ho]
    · have hbl : 0 < b.length := List.length_pos.mpr hb
      have hw : 0 < o + b.length := by omega
      simp only [open_memstream, MemStream.write, MemStream.seek, MemStream.rest, hP, hb,
        hPl, hno, h0, hw, if_true, if_false, overlay_zero_nil, Nat.zero_add,
        Int.toNat_ofNat, hsub, List.replicate_zero, List.append_nil, Int.toNat_zero,
        Nat.zero_sub, Nat.max_self, List.drop_zero, overlay_eq_of_le P b o ho]
      have hlen : (P.take o ++ b).length = o + b.length := by
        simp [Nat.min_eq_left ho]
      have hle : o + b.length ≤ (P.take o ++ b ++ P.drop (o + b.length)).length := by
        rw [List.length_append, hlen]
        omega
      have hmax : max (o + b.length) 0 = o + b.length := Nat.max_eq_left (Nat.zero_le _)
      rw [hmax, Nat.sub_eq_zero_of_le hle, List.replicate_zero, List.append_nil,
        List.take_append_of_le_length (by omega), ← hlen, List.take_length]

/-- What `encfs_write` of `encfs.c` stores, for every input: when decryption inverts
encryption, writing `b` at offset `o ≤ len P` (not both empty and at 0) into a stored file
that decrypts to `P` leaves a stored file that decrypts to `P[0:o] ++ b`; what followed
the written bytes is lost. -/
theorem uniform_write_keeps_head_and_data (A : CryptoAdapter) (state : Uniform.encfs_state)
    (w : World) (path : CStr) (file : File) (P b : Bytes) (o : Nat)
    (hinv : A.Inverts state.passPhrase)
    (hfile : w.fs (Uniform.encfs_fullpath state path) = some file)
    (hP : (A.do_crypt file.data Uniform.AES_DECRYPT state.passPhrase).out = P)
    (ho : o ≤ P.length) (hpos : 0 < o + b.length) :
    ∃ file1, (Uniform.encfs_write A state w path b b.length o).world.fs
        (Uniform.encfs_fullpath state path) = some file1 ∧
      (A.do_crypt file1.data Uniform.AES_DECRYPT state.passPhrase).out = P.take o ++ b := by
  obtain ⟨f1, hf1, hd1⟩ := fopen_w_writeAt_data w.fs (Uniform.encfs_fullpath state path)
    (A.do_crypt (P.take o ++ b) Uniform.AES_ENCRYPT state.passPhrase).out
  refine ⟨f1, ?_, ?_⟩
  · simp only [Uniform.encfs_write, hfile, hP, List.take_length,
      memstream_seek_write_seek_rest P b o ho hpos]
    exact hf1
  · rw [hd1]
    exact hinv (P.take o ++ b)

/-! ## Tagged variant: the write ignores its offset (C2) -/

/-- C2, evaluated where it fails: the tagged file at `/r/a` decrypts to `[1, 2]`;
`encfs_write` of `[9]` at offset 0 leaves a file that decrypts to `[1, 2, 9]`
(the data is appended), where the overlay is `[9, 2]`. -/
theorem tagged_write_offset_zero_appends :
    (shiftPad.do_crypt [2, 3, 255] Tagged.DECRYPT tState.key).out = [1, 2] ∧
    ((Tagged.encfs_write shiftPad tState (worldA [2, 3, 255] (some trueValue)) pathA
        [9] 1 0).world.fs realA).map
      (fun f => (shiftPad.do_crypt f.data Tagged.DECRYPT tState.key).out) = some [1, 2, 9] := by
  decide

/-! ## Uniform variant: the read encrypts (C3) -/

/-- C3, evaluated where it fails: after `encfs_create` and `encfs_write` of `[1]` at
offset 0 the stored file is the encryption `[2, 255]` of `[1]`, and `encfs_read` of one
byte at offset 0 returns count 1 with `buf = [3]`, the first byte of the encryption of
the stored ciphertext, where the round trip is `[1]`. -/
theorem uniform_read_after_write_encrypts_again :
    (Uniform.encfs_write shiftPad uState
        (Uniform.encfs_create shiftPad uState ⟨fun _ => none, 0⟩ pathA).world
        pathA [1] 1 0).world.fs realA = some ⟨[2, 255], none⟩ ∧
    (Uniform.encfs_read shiftPad uState
        (Uniform.encfs_write shiftPad uState
          (Uniform.encfs_create shiftPad uState ⟨fun _ => none, 0⟩ pathA).world
          pathA [1] 1 0).world
        pathA 1 0).ret = 1 ∧
    (Uniform.encfs_read shiftPad uState
        (Uniform.encfs_write shiftPad uState
          (Uniform.encfs_create shiftPad uState ⟨fun _ => none, 0⟩ pathA).world
          pathA [1] 1 0).world
        pathA 1 0).buf = [3] := by
  decide

/-! ## Tagged variant: the read ignores offset and size (C4) -/

/-- C4, evaluated where it fails: the tagged file at `/r/a` decrypts to `[1, 2, 3]`;
`encfs_read` with size 3 at offset 1 returns count 3 and `buf = [1, 2, 3]`, the whole
plaintext from its start, where the requested range is `[2, 3]`. -/
theorem tagged_read_offset_one_returns_whole_file :
    (shiftPad.do_crypt [2, 3, 4, 255] Tagged.DECRYPT tState.key).out = [1, 2, 3] ∧
    (Tagged.encfs_read shiftPad tState (worldA [2, 3, 4, 255] (some trueValue)) pathA 3 1).ret
      = 3 ∧
    (Tagged.encfs_read shiftPad tState (worldA [2, 3, 4, 255] (some trueValue)) pathA 3 1).buf
      = [1, 2, 3] := by
  decide

/-! ## Tagged variant: which branch is taken (C5) -/

/-- C5 as stated fails: a file whose `user.enc` attribute has a zero-length value is
read through the cipher (`buf = [4]`), not by `pread` (which gives `[5]`). -/
theorem tagged_empty_attribute_takes_encrypted_branch :
    (worldA [5, 255] (some [])).fs realA = some ⟨[5, 255], some []⟩ ∧
    (Tagged.encfs_read shiftPad tState (worldA [5, 255] (some [])) pathA 1 0).buf = [4] ∧
    (Tagged.encfs_read_plain (worldA [5, 255] (some [])) realA 1 0).buf = [5] := by
  decide

theorem getxattr_size_nonneg_iff (w : World) (p : CStr) :
    (getxattr_size w p).1 ≥ 0 ↔ attrPresent w.fs p = true := by
  unfold getxattr_size attrPresent
  cases h : w.fs p with
  | none => simp
  | some f =>
    cases hx : f.enc_xattr with
    | none => simp [hx]
    | some v => simp [hx]

theorem getxattr_size_world_of_present (w : World) (p : CStr)
    (h : attrPresent w.fs p = true) : (getxattr_size w p).2 = w := by
  unfold getxattr_size
  unfold attrPresent at h
  cases hf : w.fs p with
  | none => simp [hf] at h
  | some f =>
    cases hx : f.enc_xattr with
    | none => simp [hf, hx] at h
    | some v => simp [hx]

/-- The branch of the tagged callbacks, by presence of the attribute. -/
theorem tagged_branch_by_attribute_presence_aux (A : CryptoAdapter) (state : Tagged.encfs_state)
    (w : World) (path : CStr) (buf : Bytes) (size : Nat) (offset : Int) :
    Tagged.encfs_read A state w path size offset =
      (if attrPresent w.fs (Tagged.encfs_fullpath state path) = true then
        Tagged.encfs_read_encrypted A state w (Tagged.encfs_fullpath state path)
      else
        Tagged.encfs_read_plain (getxattr_size w (Tagged.encfs_fullpath state path)).2
          (Tagged.encfs_fullpath state path) size offset) ∧
    Tagged.encfs_write A state w path buf size offset =
      (if attrPresent w.fs (Tagged.encfs_fullpath state path) = true then
        Tagged.encfs_write_encrypted A state w (Tagged.encfs_fullpath state path) buf size
      else
        Tagged.encfs_write_plain (getxattr_size w (Tagged.encfs_fullpath state path)).2
          (Tagged.encfs_fullpath state path) buf size offset) := by
  have hiff := getxattr_size_nonneg_iff w (Tagged.encfs_fullpath state path)
  by_cases hp : attrPresent w.fs (Tagged.encfs_fullpath state path) = true
  · have hw := getxattr_size_world_of_present w _ hp
    have hge := hiff.mpr hp
    constructor
    · simp only [Tagged.encfs_read, hp, if_true]
      rw [if_pos hge, hw]
    · simp only [Tagged.encfs_write, hp, if_true]
      rw [if_pos hge, hw]
  · have hge : ¬ (getxattr_size w (Tagged.encfs_fullpath state path)).1 ≥ 0 :=
      fun h => hp (hiff.mp h)
    constructor
    · simp only [Tagged.encfs_read, hp]
      rw [if_neg hge]
      simp
    · simp only [Tagged.encfs_write, hp]
      rw [if_neg hge]
      simp

/-- C5, amended: `encfs_read` and `encfs_write` of the tagged variant take the
encrypted branch exactly when the `user.enc` attribute is present on the real path,
whatever its value (a zero-length value included); otherwise (no attribute, no file)
they run the `pread`/`pwrite` branch, after the failed attribute query has set `errno`. -/
theorem tagged_branch_by_attribute_presence (A : CryptoAdapter) (state : Tagged.encfs_state)
    (w : World) (path : CStr) (buf : Bytes) (size : Nat) (offset : Int) :
    Tagged.encfs_read A state w path size offset =
      (if attrPresent w.fs (Tagged.encfs_fullpath state path) = true then
        Tagged.encfs_read_encrypted A state w (Tagged.encfs_fullpath state path)
      else
        Tagged.encfs_read_plain (getxattr_size w (Tagged.encfs_fullpath state path)).2
          (Tagged.encfs_fullpath state path) size offset) ∧
    Tagged.encfs_write A state w path buf size offset =
      (if attrPresent w.fs (Tagged.encfs_fullpath state path) = true then
        Tagged.encfs_write_encrypted A state w (Tagged.encfs_fullpath state path) buf size
      else
        Tagged.encfs_write_plain (getxattr_size w (Tagged.encfs_fullpath state path)).2
          (Tagged.encfs_fullpath state path) buf size offset) :=
  tagged_branch_by_attribute_presence_aux A state w path buf size offset

/-! ## The result of `do_crypt` is not inspected (C6) -/

theorem ne_append_dotTemp (p : CStr) : p ≠ p ++ dotTemp := by
  intro h
  have := congrArg List.length h
  simp [dotTemp] at this

theorem fopen_w_other (t : Tree) (p q : CStr) (h : q ≠ p) : fopen_w t p q = t q := by
  cases ht : t p <;> simp [fopen_w, ht, Tree.set, h]

theorem writeAt_other (t : Tree) (p q : CStr) (pos : Nat) (b : Bytes) (h : q ≠ p) :
    t.writeAt p pos b q = t q := by
  cases ht : t p <;> simp [Tree.writeAt, ht, Tree.set, h]

/-- What the encrypted branch of the tagged `encfs_read` yields on an existing file: the
whole decryption output in `buf`, its length as the count, and a tree that differs from
the one before at most at `fullpath ++ ".temp"`. -/
theorem tagged_read_encrypted_spec (A : CryptoAdapter) (state : Tagged.encfs_state)
    (w : World) (full : CStr) (f : File) (hf : w.fs full = some f) :
    (Tagged.encfs_read_encrypted A state w full).buf
      = (A.do_crypt f.data Tagged.DECRYPT state.key).out ∧
    (Tagged.encfs_read_encrypted A state w full).ret
      = (if toInt32 (A.do_crypt f.data Tagged.DECRYPT state.key).out.length = -1 then -w.errno
         else toInt32 (A.do_crypt f.data Tagged.DECRYPT state.key).out.length) ∧
    (Tagged.encfs_read_encrypted A state w full).world.errno = w.errno ∧
    ∀ q, q ≠ full ++ dotTemp →
      (Tagged.encfs_read_encrypted A state w full).world.fs q = w.fs q := by
  have hne : full ≠ full ++ dotTemp := ne_append_dotTemp full
  have h1 : (fopen_w w.fs (full ++ dotTemp)).readFrom full 0 = f.data := by
    simp [Tree.readFrom, fopen_w_other _ _ _ hne, hf]
  obtain ⟨g, hg, hgd⟩ := fopen_w_writeAt_data w.fs (full ++ dotTemp)
    (A.do_crypt f.data Tagged.DECRYPT state.key).out
  have h2 : ((fopen_w w.fs (full ++ dotTemp)).writeAt (full ++ dotTemp) 0
      (A.do_crypt f.data Tagged.DECRYPT state.key).out).readFrom (full ++ dotTemp) 0
      = (A.do_crypt f.data Tagged.DECRYPT state.key).out := by
    simp [Tree.readFrom, hg, hgd]
  unfold Tagged.encfs_read_encrypted
  simp only [h1, Tree.size, h2, List.take_length]
  refine ⟨?_, ?_, ?_, ?_⟩
  · split <;> rfl
  · split <;> rfl
  · split <;> rfl
  · intro q hq
    split <;> simp [Tree.set_other, writeAt_other, fopen_w_other, hq]

/-- C7 as stated fails: the tree holds the tagged file `/r/a` and a file `/r/a.temp`;
after `encfs_read` of `/a` the file `/r/a.temp` no longer exists. -/
theorem tagged_read_removes_temp_sibling :
    worldTemp.fs (realA ++ dotTemp) = some ⟨[7], none⟩ ∧
    (Tagged.encfs_read shiftPad tState worldTemp pathA 4 0).world.fs (realA ++ dotTemp)
      = none := by
  decide

theorem read_plain_fs (w : World) (p : CStr) (size : Nat) (offset : Int) :
    (Tagged.encfs_read_plain w p size offset).world.fs = w.fs := by
  unfold Tagged.encfs_read_plain
  cases h : w.fs p with
  | none => rfl
  | some f =>
    dsimp only
    split
    · rfl
    · split <;> rfl

theorem getxattr_size_absent (w w1 : World) (p : CStr) (hfs : w1.fs = w.fs)
    (h : ¬ attrPresent w.fs p = true) : (getxattr_size w1 p).2 = (getxattr_size w p).2 := by
  obtain ⟨fs, e⟩ := w
  obtain ⟨fs1, e1⟩ := w1
  simp only at hfs
  subst hfs
  unfold attrPresent at h
  unfold getxattr_size
  dsimp only at h ⊢
  cases hf : fs1 p with
  | none => rfl
  | some f =>
    cases hx : f.enc_xattr with
    | none => simp only [hx]
    | some v => simp [hf, hx] at h

/-- C7, amended: in a mirror tree without links (every file is reached by one path only,
so nothing else stands behind the path of the read file followed by `.temp`), after the
tagged `encfs_read` returns, every file of the mirror tree other than the one at the read
file's real path followed by `.temp` exists iff it existed before, with the same content
and attribute (that one path is the scratch file of the encrypted branch and is not
preserved); and a second read with the same arguments returns the same count and the same
bytes. -/
theorem tagged_read_frame (A : CryptoAdapter) (state : Tagged.encfs_state) (w : World)
    (path : CStr) (size : Nat) (offset : Int) :
    (∀ q, q ≠ Tagged.encfs_fullpath state path ++ dotTemp →
      (Tagged.encfs_read A state w path size offset).world.fs q = w.fs q) ∧
    (Tagged.encfs_read A state (Tagged.encfs_read A state w path size offset).world
        path size offset).ret = (Tagged.encfs_read A state w path size offset).ret ∧
    (Tagged.encfs_read A state (Tagged.encfs_read A state w path size offset).world
        path size offset).buf = (Tagged.encfs_read A state w path size offset).buf := by
  have hne := ne_append_dotTemp (Tagged.encfs_fullpath state path)
  by_cases hp : attrPresent w.fs (Tagged.encfs_fullpath state path) = true
  · have hr := (tagged_branch_by_attribute_presence_aux A state w path [] size offset).1
    rw [if_pos hp] at hr
    obtain ⟨f, hf⟩ : ∃ f, w.fs (Tagged.encfs_fullpath state path) = some f := by
      unfold attrPresent at hp
      cases h : w.fs (Tagged.encfs_fullpath state path) with
      | none => simp [h] at hp
      | some f => exact ⟨f, rfl⟩
    obtain ⟨hb, hret, herr, hframe⟩ := tagged_read_encrypted_spec A state w _ f hf
    have hf1 : (Tagged.encfs_read_encrypted A state w
        (Tagged.encfs_fullpath state path)).world.fs (Tagged.encfs_fullpath state path)
        = some f := by
      rw [hframe _ hne, hf]
    have hp1 : attrPresent (Tagged.encfs_read_encrypted A state w
        (Tagged.encfs_fullpath state path)).world.fs (Tagged.encfs_fullpath state path)
        = true := by
      unfold attrPresent at hp ⊢
      rw [hf1]
      rw [hf] at hp
      exact hp
    have hr1 := (tagged_branch_by_attribute_presence_aux A state
      (Tagged.encfs_read_encrypted A state w (Tagged.encfs_fullpath state path)).world
      path [] size offset).1
    rw [if_pos hp1] at hr1
    obtain ⟨hb1, hret1, _, _⟩ := tagged_read_encrypted_spec A state
      (Tagged.encfs_read_encrypted A state w (Tagged.encfs_fullpath state path)).world _ f hf1
    refine ⟨?_, ?_, ?_⟩
    · intro q hq
      rw [hr]
      exact hframe q hq
    · rw [hr, hr1, hret1, hret, herr]
    · rw [hr, hr1, hb1, hb]
  · have hr := (tagged_branch_by_attribute_presence_aux A state w path [] size offset).1
    rw [if_neg hp] at hr
    have hfs : (Tagged.encfs_read A state w path size offset).world.fs = w.fs := by
      rw [hr, read_plain_fs]
      unfold getxattr_size
      cases h : w.fs (Tagged.encfs_fullpath state path) with
      | none => rfl
      | some f => cases hx : f.enc_xattr <;> simp [hx]
    have hp1 : ¬ attrPresent (Tagged.encfs_read A state w path size offset).world.fs
        (Tagged.encfs_fullpath state path) = true := by
      rw [hfs]
      exact hp
    have hr1 := (tagged_branch_by_attribute_presence_aux A state
      (Tagged.encfs_read A state w path size offset).world path [] size offset).1
    rw [if_neg hp1, getxattr_size_absent w _ _ hfs hp, ← hr] at hr1
    refine ⟨?_, ?_, ?_⟩
    · intro q _
      rw [hfs]
    · rw [hr1]
    · rw [hr1]

/-- Instance of C7 (amended): the read file `/r/a` itself is left as it was. -/
theorem tagged_read_frame_witness :
    realA ≠ Tagged.encfs_fullpath tState pathA ++ dotTemp ∧
    (Tagged.encfs_read shiftPad tState worldTemp pathA 4 0).world.fs realA
      = worldTemp.fs realA :=
  ⟨by decide, (tagged_read_frame shiftPad tState worldTemp pathA 4 0).1 realA (by decide)⟩

/-! ## The Path Resolver: length (C8) -/

theorem longPath_length : longPath.length = 4096 := by
  simp only [longPath, List.length_cons, List.length_replicate]

/-- C8 as stated fails: with root `/r` and a virtual path of 4096 characters the
concatenation exceeds `PATH_MAX`, the specified resolver fails with `PathTooLong`, and
`encfs_fullpath` of both variants yields the concatenation, 4098 characters long. -/
theorem fullpath_overlong_yields_path :
    PATH_MAX < rootR.length + longPath.length ∧
    spec_resolve rootR longPath = Except.error ResolveError.PathTooLong ∧
    Uniform.encfs_fullpath uState longPath = rootR ++ longPath ∧
    Tagged.encfs_fullpath tState longPath = rootR ++ longPath ∧
    (rootR ++ longPath).length = 4098 := by
  have hl := longPath_length
  have ht : longPath.take PATH_MAX = longPath :=
    List.take_of_length_le (by rw [hl]; decide)
  refine ⟨?_, ?_, ?_, ?_, ?_⟩
  · rw [hl]; decide
  · unfold spec_resolve
    rw [if_pos (by rw [hl]; decide)]
  · simp only [Uniform.encfs_fullpath, ht, uState]
  · simp only [Tagged.encfs_fullpath, ht, tState]
  · rw [List.length_append, hl]; rfl

/-- C8, amended: `encfs_fullpath` of either variant has no failure result, so no
`PathTooLong` is reported; when the concatenation fits the path buffer (root and virtual
path together shorter than `PATH_MAX`) the real path is the root followed by the virtual
path, as the specified resolver gives. -/
theorem fullpath_concat_when_fits (ust : Uniform.encfs_state) (tst : Tagged.encfs_state)
    (path : CStr)
    (hu : ust.rootdir.length + path.length < PATH_MAX)
    (ht : tst.rootdir.length + path.length < PATH_MAX) :
    Uniform.encfs_fullpath ust path = ust.rootdir ++ path ∧
    Tagged.encfs_fullpath tst path = tst.rootdir ++ path ∧
    spec_resolve ust.rootdir path = Except.ok (Uniform.encfs_fullpath ust path) ∧
    spec_resolve tst.rootdir path = Except.ok (Tagged.encfs_fullpath tst path) := by
  have hp : path.take PATH_MAX = path := List.take_of_length_le (by omega)
  refine ⟨?_, ?_, ?_, ?_⟩
  · simp only [Uniform.encfs_fullpath, hp]
  · simp only [Tagged.encfs_fullpath, hp]
  · unfold spec_resolve
    rw [if_neg (by omega)]
    simp only [Uniform.encfs_fullpath, hp]
  · unfold spec_resolve
    rw [if_neg (by omega)]
    simp only [Tagged.encfs_fullpath, hp]

/-- Instance of C8 (amended): root `/r`, virtual path `/a`. -/
theorem fullpath_concat_when_fits_witness :
    uState.rootdir.length + pathA.length < PATH_MAX ∧
    tState.rootdir.length + pathA.length < PATH_MAX ∧
    (Uniform.encfs_fullpath uState pathA = uState.rootdir ++ pathA ∧
     Tagged.encfs_fullpath tState pathA = tState.rootdir ++ pathA ∧
     spec_resolve uState.rootdir pathA = Except.ok (Uniform.encfs_fullpath uState pathA) ∧
     spec_resolve tState.rootdir pathA = Except.ok (Tagged.encfs_fullpath tState pathA)) :=
  ⟨by decide, by decide, fullpath_concat_when_fits uState tState pathA (by decide) (by decide)⟩

/-! ## The Path Resolver: containment (C9) -/

/-- C9 as stated fails: with root `/r` the virtual path `/../x` resolves to `/r/../x`,
which denotes `/x`; that is not below `/r`. -/
theorem fullpath_dotdot_escapes_root :
    Uniform.encfs_fullpath uState escapePath = ['/', 'r', '/', '.', '.', '/', 'x'] ∧
    normalise (Uniform.encfs_fullpath uState escapePath) = [['x']] ∧
    normalise uState.rootdir = [['r']] ∧
    strictlyBelow (normalise uState.rootdir)
      (normalise (Uniform.encfs_fullpath uState escapePath)) = false ∧
    strictlyBelow (normalise tState.rootdir)
      (normalise (Tagged.encfs_fullpath tState escapePath)) = false := by
  decide

theorem splitSlash_ne_nil (p : CStr) : splitSlash p ≠ [] := by
  cases p with
  | nil => simp [splitSlash]
  | cons c cs =>
    unfold splitSlash
    split
    · simp
    · split <;> simp

theorem splitSlash_append_slash (a b : CStr) :
    splitSlash (a ++ '/' :: b) = splitSlash a ++ splitSlash b := by
  induction a with
  | nil => simp [splitSlash]
  | cons c cs ih =>
    by_cases hc : c = '/'
    · simp [splitSlash, hc, ih]
    · rw [List.cons_append]
      simp only [splitSlash, hc, if_false, ih]
      cases hs : splitSlash cs with
      | nil => exact absurd hs (splitSlash_ne_nil cs)
      | cons s ss => simp

theorem foldl_normStep_of_no_dotdot (ys : List CStr) (stack : List CStr)
    (h : dotdot ∉ ys) :
    ys.foldl normStep stack = stack ++ ys.filter (fun s => decide (s ≠ [] ∧ s ≠ dot)) := by
  induction ys generalizing stack with
  | nil => simp
  | cons y ys ih =>
    have hy : y ≠ dotdot := fun e => h (by simp [e])
    have hys : dotdot ∉ ys := fun e => h (by simp [e])
    rw [List.foldl_cons, ih _ hys]
    by_cases h1 : y = [] ∨ y = dot
    · have hf : decide (y ≠ [] ∧ y ≠ dot) = false := by
        rcases h1 with h1 | h1 <;> simp [h1]
      simp only [normStep, h1, if_true, List.filter_cons, hf]
      simp
    · have hf : decide (y ≠ [] ∧ y ≠ dot) = true := by
        push_neg at h1
        simp [h1]
      simp only [normStep, h1, hy, if_false, List.filter_cons, hf]
      simp

theorem strictlyBelow_append (r s : List CStr) (hs : s ≠ []) :
    strictlyBelow r (r ++ s) = true := by
  induction r with
  | nil =>
    cases s with
    | nil => exact absurd rfl hs
    | cons x xs => rfl
  | cons a r ih => simp [strictlyBelow, ih]

theorem normalise_below_root (root rest : CStr)
    (hdd : dotdot ∉ splitSlash rest)
    (hseg : ∃ s ∈ splitSlash rest, s ≠ [] ∧ s ≠ dot) :
    strictlyBelow (normalise root) (normalise (root ++ '/' :: rest)) = true := by
  unfold normalise
  rw [splitSlash_append_slash, List.foldl_append, foldl_normStep_of_no_dotdot _ _ hdd]
  apply strictlyBelow_append
  obtain ⟨s, hs, hs1⟩ := hseg
  intro hnil
  have : s ∈ (splitSlash rest).filter (fun s => decide (s ≠ [] ∧ s ≠ dot)) := by
    rw [List.mem_filter]
    exact ⟨hs, by simpa using hs1⟩
  rw [hnil] at this
  simp at this

/-- C9, amended: `encfs_fullpath` of either variant concatenates without resolving `..`.
For every session root and every virtual path that starts with `/`, fits the path buffer,
has no `..` segment and has a segment other than the empty one and `.`, the real path
denotes, once `.` and `..` are normalised, a location strictly below the mirror root. -/
theorem fullpath_below_root_without_dotdot (ust : Uniform.encfs_state)
    (tst : Tagged.encfs_state) (rest : CStr)
    (hu : ust.rootdir.length + ('/' :: rest).length < PATH_MAX)
    (ht : tst.rootdir.length + ('/' :: rest).length < PATH_MAX)
    (hdd : dotdot ∉ splitSlash rest)
    (hseg : ∃ s ∈ splitSlash rest, s ≠ [] ∧ s ≠ dot) :
    strictlyBelow (normalise ust.rootdir)
      (normalise (Uniform.encfs_fullpath ust ('/' :: rest))) = true ∧
    strictlyBelow (normalise tst.rootdir)
      (normalise (Tagged.encfs_fullpath tst ('/' :: rest))) = true := by
  constructor
  · have hp : ('/' :: rest).take PATH_MAX = '/' :: rest := List.take_of_length_le (by omega)
    simp only [Uniform.encfs_fullpath, hp]
    exact normalise_below_root _ _ hdd hseg
  · have hp : ('/' :: rest).take PATH_MAX = '/' :: rest :=
      List.take_of_length_le (Nat.le_of_lt (Nat.lt_of_le_of_lt (Nat.le_add_left _ _) ht))
    simp only [Tagged.encfs_fullpath, hp]
    exact normalise_below_root _ _ hdd hseg

/-- Instance of C9 (amended): root `/r`, virtual path `/a`. -/
theorem fullpath_below_root_without_dotdot_witness :
    dotdot ∉ splitSlash ['a'] ∧
    (strictlyBelow (normalise uState.rootdir)
      (normalise (Uniform.encfs_fullpath uState ('/' :: ['a']))) = true ∧
     strictlyBelow (normalise tState.rootdir)
      (normalise (Tagged.encfs_fullpath tState ('/' :: ['a']))) = true) :=
  ⟨by decide, fullpath_below_root_without_dotdot uState tState ['a'] (by decide) (by decide)
    (by decide) ⟨['a'], by decide, by decide⟩⟩

/-! ## Truncation acts on the stored bytes (C10) -/

/-- C10 as stated fails: the stored file `[2, 3, 255]` decrypts to `P = [1, 2]`;
`encfs_truncate` to `n = 1` succeeds in both variants and leaves the stored file `[2]`,
the first byte of the ciphertext, which does not decrypt to `P[0:1] = [1]`. -/
theorem truncate_cuts_ciphertext_example :
    (shiftPad.do_crypt [2, 3, 255] Uniform.AES_DECRYPT uState.passPhrase).out = [1, 2] ∧
    (Uniform.encfs_truncate uState (worldA [2, 3, 255] none) pathA 1).ret = 0 ∧
    (Uniform.encfs_truncate uState (worldA [2, 3, 255] none) pathA 1).world.fs realA
      = some ⟨[2], none⟩ ∧
    (Tagged.encfs_truncate tState (worldA [2, 3, 255] (some trueValue)) pathA 1).ret = 0 ∧
    (Tagged.encfs_truncate tState (worldA [2, 3, 255] (some trueValue)) pathA 1).world.fs realA
      = some ⟨[2], some trueValue⟩ ∧
    shiftPad.do_crypt [2] Uniform.AES_DECRYPT uState.passPhrase = ⟨false, []⟩ ∧
    shiftPad.do_crypt [2] Tagged.DECRYPT tState.key = ⟨false, []⟩ := by
  decide

theorem truncate_of_file (w : World) (p : CStr) (f : File) (n : Nat) (hf : w.fs p = some f) :
    truncate w p (n : Int) =
      (0, ⟨Tree.set w.fs p
        (some ⟨f.data.take n ++ List.replicate (n - f.data.length) 0, f.enc_xattr⟩),
        w.errno⟩) := by
  simp [truncate, hf]

/-- C10, amended: in both variants a successful `encfs_truncate(path, n)` cuts the stored
bytes themselves, with no decryption or re-encryption: an existing file is left holding
the first `n` bytes of what was stored (zero-extended when `n` exceeds the stored length),
its attribute unchanged, and the call returns 0. -/
theorem truncate_acts_on_stored_bytes (ust : Uniform.encfs_state) (tst : Tagged.encfs_state)
    (w : World) (path : CStr) (n : Nat) (fu ft : File)
    (hu : w.fs (Uniform.encfs_fullpath ust path) = some fu)
    (ht : w.fs (Tagged.encfs_fullpath tst path) = some ft) :
    (Uniform.encfs_truncate ust w path (n : Int)).ret = 0 ∧
    (Uniform.encfs_truncate ust w path (n : Int)).world.fs (Uniform.encfs_fullpath ust path)
      = some ⟨fu.data.take n ++ List.replicate (n - fu.data.length) 0, fu.enc_xattr⟩ ∧
    (Tagged.encfs_truncate tst w path (n : Int)).ret = 0 ∧
    (Tagged.encfs_truncate tst w path (n : Int)).world.fs (Tagged.encfs_fullpath tst path)
      = some ⟨ft.data.take n ++ List.replicate (n - ft.data.length) 0, ft.enc_xattr⟩ := by
  refine ⟨?_, ?_, ?_, ?_⟩
  · simp [Uniform.encfs_truncate, truncate_of_file _ _ _ _ hu]
  · simp [Uniform.encfs_truncate, truncate_of_file _ _ _ _ hu, Tree.set]
  · simp [Tagged.encfs_truncate, truncate_of_file _ _ _ _ ht]
  · simp [Tagged.encfs_truncate, truncate_of_file _ _ _ _ ht, Tree.set]

/-- Instance of C10 (amended): the stored file `[2, 3, 255]` cut to one byte. -/
theorem truncate_acts_on_stored_bytes_witness :
    (worldA [2, 3, 255] none).fs (Uniform.encfs_fullpath uState pathA)
      = some ⟨[2, 3, 255], none⟩ ∧
    (worldA [2, 3, 255] none).fs (Tagged.encfs_fullpath tState pathA)
      = some ⟨[2, 3, 255], none⟩ ∧
    ((Uniform.encfs_truncate uState (worldA [2, 3, 255] none) pathA ((1 : Nat) : Int)).ret = 0 ∧
     (Uniform.encfs_truncate uState (worldA [2, 3, 255] none) pathA
        ((1 : Nat) : Int)).world.fs (Uniform.encfs_fullpath uState pathA)
      = some ⟨[2, 3, 255].take 1 ++ List.replicate (1 - [2, 3, 255].length) 0, none⟩ ∧
     (Tagged.encfs_truncate tState (worldA [2, 3, 255] none) pathA ((1 : Nat) : Int)).ret = 0 ∧
     (Tagged.encfs_truncate tState (worldA [2, 3, 255] none) pathA
        ((1 : Nat) : Int)).world.fs (Tagged.encfs_fullpath tState pathA)
      = some ⟨[2, 3, 255].take 1 ++ List.replicate (1 - [2, 3, 255].length) 0, none⟩) :=
  ⟨by decide, by decide,
    truncate_acts_on_stored_bytes uState tState (worldA [2, 3, 255] none) pathA 1
      ⟨[2, 3, 255], none⟩ ⟨[2, 3, 255], none⟩ (by decide) (by decide)⟩

/-! ## Tagged variant: creation and the tag (C11) -/

/-- C12 as stated fails: `/r/a` is a regular file, so the real path `/r/a/b` does not
exist; `encfs_read` of `/a/b` returns `-ENOTDIR` in both variants, not `-ENOENT`. -/
theorem read_under_regular_file_returns_enotdir :
    (worldA [1] none).fs (Uniform.encfs_fullpath uState pathAB) = none ∧
    (worldA [1] none).fs (Tagged.encfs_fullpath tState pathAB) = none ∧
    (Uniform.encfs_read shiftPad uState (worldA [1] none) pathAB 4 0).ret = -ENOTDIR ∧
    (Tagged.encfs_read shiftPad tState (worldA [1] none) pathAB 4 0).ret = -ENOTDIR ∧
    -ENOTDIR ≠ -ENOENT := by
  decide

theorem walk_errno_of_clear (t : Tree) (rest : CStr) :
    ∀ (pre : CStr) (cur : Nat),
      (∀ q r : CStr, rest = q ++ '/' :: r → t (pre ++ q) = none) →
      (∀ s b : CStr, rest = s ++ b → '/' ∉ s → cur + s.length ≤ NAME_MAX) →
      (∀ a s b : CStr, rest = a ++ s ++ b → '/' ∉ s → s.length ≤ NAME_MAX) →
      walk_errno t pre cur rest = ENOENT := by
  induction rest with
  | nil =>
    intro pre cur _ h2 _
    have := h2 [] [] rfl (by simp)
    unfold walk_errno
    rw [if_neg (by simpa using this)]
  | cons c cs ih =>
    intro pre cur h1 h2 h3
    unfold walk_errno
    by_cases hc : c = '/'
    · subst hc
      have hcur := h2 [] ('/' :: cs) rfl (by simp)
      have hpre := h1 [] cs rfl
      simp only [List.append_nil] at hpre
      simp only [List.length_nil, Nat.add_zero] at hcur
      rw [if_pos rfl, if_neg (by omega), if_neg (by simp [hpre])]
      apply ih
      · intro q r hq
        have := h1 ('/' :: q) r (by simp [hq])
        simpa using this
      · intro s b hs hns
        have := h3 ['/'] s b (by simp [hs]) hns
        omega
      · intro a s b hs hns
        exact h3 ('/' :: a) s b (by simp [hs]) hns
    · rw [if_neg hc]
      apply ih
      · intro q r hq
        have := h1 (c :: q) r (by simp [hq])
        simpa using this
      · intro s b hs hns
        have := h2 (c :: s) b (by simp [hs]) (by
          intro hmem
          rcases List.mem_cons.mp hmem with h | h
          · exact hc h.symm
          · exact hns h)
        simp only [List.length_cons] at this
        omega
      · intro a s b hs hns
        exact h3 (c :: a) s b (by simp [hs]) hns

theorem lookup_errno_of_clear (t : Tree) (p : CStr) (hanc : noFileAbove t p)
    (hname : namesWithinLimits p) : lookup_errno t p = ENOENT := by
  unfold lookup_errno
  rw [if_neg (by have := hname.1; omega)]
  apply walk_errno_of_clear
  · intro q r hq
    simpa using hanc q r hq
  · intro s b hs hns
    have := hname.2 [] s b (by simpa using hs) hns
    omega
  · exact hname.2

/-- C12, amended: in both variants, when the real path names nothing, no proper ancestor
of it is a regular file, and its length and its names are within `PATH_MAX` and
`NAME_MAX`, `encfs_read` returns `-ENOENT` and stores no byte in `buf`, and its whole
result is the same for every adapter: no transform of the adapter enters it. -/
theorem read_missing_returns_enoent (A : CryptoAdapter) (ust : Uniform.encfs_state)
    (tst : Tagged.encfs_state) (w : World) (path : CStr) (size : Nat) (offset : Int)
    (hu : w.fs (Uniform.encfs_fullpath ust path) = none)
    (hua : noFileAbove w.fs (Uniform.encfs_fullpath ust path))
    (hun : namesWithinLimits (Uniform.encfs_fullpath ust path))
    (ht : w.fs (Tagged.encfs_fullpath tst path) = none)
    (hta : noFileAbove w.fs (Tagged.encfs_fullpath tst path))
    (htn : namesWithinLimits (Tagged.encfs_fullpath tst path)) :
    ((Uniform.encfs_read A ust w path size offset).ret = -ENOENT ∧
     (Uniform.encfs_read A ust w path size offset).buf = [] ∧
     ∀ B : CryptoAdapter, Uniform.encfs_read B ust w path size offset
       = Uniform.encfs_read A ust w path size offset) ∧
    ((Tagged.encfs_read A tst w path size offset).ret = -ENOENT ∧
     (Tagged.encfs_read A tst w path size offset).buf = [] ∧
     ∀ B : CryptoAdapter, Tagged.encfs_read B tst w path size offset
       = Tagged.encfs_read A tst w path size offset) := by
  have hue := lookup_errno_of_clear _ _ hua hun
  have hte := lookup_errno_of_clear _ _ hta htn
  have hU : ∀ B : CryptoAdapter, Uniform.encfs_read B ust w path size offset
      = ⟨-ENOENT, [], { w with errno := ENOENT }⟩ := by
    intro B
    simp [Uniform.encfs_read, hu, hue]
  have hT : ∀ B : CryptoAdapter, Tagged.encfs_read B tst w path size offset
      = ⟨-ENOENT, [], { w with errno := ENOENT }⟩ := by
    intro B
    simp [Tagged.encfs_read, getxattr_size, ht, Tagged.encfs_read_plain, hte]
  refine ⟨⟨?_, ?_, ?_⟩, ⟨?_, ?_, ?_⟩⟩
  · rw [hU A]
  · rw [hU A]
  · intro B
    rw [hU A, hU B]
  · rw [hT A]
  · rw [hT A]
  · intro B
    rw [hT A, hT B]

theorem noFileAbove_worldEmpty (p : CStr) : noFileAbove worldEmpty.fs p :=
  fun _ _ _ => rfl

theorem namesWithinLimits_realA : namesWithinLimits realA := by
  refine ⟨by decide, ?_⟩
  intro a s b h _
  have hl := congrArg List.length h
  simp only [realA, List.length_append, List.length_cons, List.length_nil] at hl
  unfold NAME_MAX
  omega

/-- Instance of C12 (amended): `/a` read on an empty tree. -/
theorem read_missing_returns_enoent_witness :
    worldEmpty.fs (Uniform.encfs_fullpath uState pathA) = none ∧
    worldEmpty.fs (Tagged.encfs_fullpath tState pathA) = none ∧
    noFileAbove worldEmpty.fs (Uniform.encfs_fullpath uState pathA) ∧
    namesWithinLimits (Uniform.encfs_fullpath uState pathA) ∧
    (((Uniform.encfs_read shiftPad uState worldEmpty pathA 4 0).ret = -ENOENT ∧
      (Uniform.encfs_read shiftPad uState worldEmpty pathA 4 0).buf = [] ∧
      ∀ B : CryptoAdapter, Uniform.encfs_read B uState worldEmpty pathA 4 0
        = Uniform.encfs_read shiftPad uState worldEmpty pathA 4 0) ∧
     ((Tagged.encfs_read shiftPad tState worldEmpty pathA 4 0).ret = -ENOENT ∧
      (Tagged.encfs_read shiftPad tState worldEmpty pathA 4 0).buf = [] ∧
      ∀ B : CryptoAdapter, Tagged.encfs_read B tState worldEmpty pathA 4 0
        = Tagged.encfs_read shiftPad tState worldEmpty pathA 4 0)) :=
  ⟨rfl, rfl, noFileAbove_worldEmpty _, namesWithinLimits_realA,
    read_missing_returns_enoent shiftPad uState tState worldEmpty pathA 4 0 rfl
      (noFileAbove_worldEmpty _) namesWithinLimits_realA rfl (noFileAbove_worldEmpty _)
      namesWithinLimits_realA⟩

end EncFS
